import Mathlib

/-!
# simplemonitor: work-stealing worker pool, shutdown routine and endpoint flag

A shallow embedding of `queue.go`, `main.go` and `monitor.go`.

* A Go `Task` is a `func() error` value that may be `nil`.  It is embedded as
  `Option τ`: `none` is the nil func, `some t` a callable task `t`.
* Worker ids (`uuid.UUID`) are natural numbers.
* The mutexes are not modelled: every operation is one atomic step on the
  state, which is what the locks guarantee for a single call.
* Durations (`time.Duration`) are integers counting nanoseconds.
-/

namespace SimpleMonitor

/-! ## queue.go : TaskQueue -/

/-- Go `type Task func() error`; `none` is the nil value. -/
abbrev Task (τ : Type) := Option τ

/-- Go `uuid.UUID`, used only for equality tests. -/
abbrev UUID := Nat

/-- Go `TaskQueue` (the mutex is left out). -/
structure TaskQueue (τ : Type) where
  tasks : List (Task τ)
deriving DecidableEq, Repr

/-- Go `NewTaskQueue`: `tasks: make([]Task, 0)`. -/
def NewTaskQueue {τ : Type} : TaskQueue τ := { tasks := [] }

/-- Go `PushTask`: `q.tasks = append(q.tasks, task)`. -/
def TaskQueue.PushTask {τ : Type} (q : TaskQueue τ) (task : Task τ) : TaskQueue τ :=
  { tasks := q.tasks ++ [task] }

/-- Go `PopTask`: nil on an empty slice, otherwise `q.tasks[0]` with
`q.tasks = q.tasks[1:]`.  The result is the returned task and the new queue. -/
def TaskQueue.PopTask {τ : Type} (q : TaskQueue τ) : Task τ × TaskQueue τ :=
  match q.tasks with
  | [] => (none, q)
  | task :: rest => (task, { tasks := rest })

/-- Calls `PopTask` `n` times in a row; the returned tasks in call order and
the queue that is left. -/
def TaskQueue.popN {τ : Type} : Nat → TaskQueue τ → List (Task τ) × TaskQueue τ
  | 0, q => ([], q)
  | n + 1, q =>
    let r := q.PopTask
    let rs := TaskQueue.popN n r.2
    (r.1 :: rs.1, rs.2)

/-! ## queue.go : Worker and WorkerPool -/

/-- Go `Worker`: its id and its own queue.  The `pool` back-reference and the
wait group are passed explicitly where they are used. -/
structure Worker (τ : Type) where
  id : UUID
  queue : TaskQueue τ
deriving DecidableEq, Repr

/-- Go `NewWorker`. -/
def NewWorker {τ : Type} (id : UUID) (queue : TaskQueue τ) : Worker τ := { id := id, queue := queue }

/-- Go `WorkerPool`: the ordered worker list (`workers []*Worker`). -/
structure WorkerPool (τ : Type) where
  workers : List (Worker τ)
deriving DecidableEq, Repr

/-- Go `NewWorkerPool(n)`: `n` workers, each with a new id and a new empty
queue.  `uuidNew i` is the result of the `i`-th call of `uuid.New()`. -/
def NewWorkerPool {τ : Type} (uuidNew : Nat → UUID) (n : Nat) : WorkerPool τ :=
  { workers := (List.range n).map (fun i => NewWorker (uuidNew i) NewTaskQueue) }

/-- The `for _, w := range p.workers` loop of `Steal`: a worker whose id is
the thief's is skipped; every other worker's queue is popped, and the first
non-nil result is returned.  The result is the task and the workers after the
pops. -/
def stealLoop {τ : Type} (thiefID : UUID) : List (Worker τ) → Task τ × List (Worker τ)
  | [] => (none, [])
  | w :: ws =>
    if w.id ≠ thiefID then
      match w.queue.PopTask with
      | (some t, q) => (some t, { w with queue := q } :: ws)
      | (none, q) =>
        let r := stealLoop thiefID ws
        (r.1, { w with queue := q } :: r.2)
    else
      let r := stealLoop thiefID ws
      (r.1, w :: r.2)

/-- Go `WorkerPool.Steal`. -/
def WorkerPool.Steal {τ : Type} (p : WorkerPool τ) (thiefID : UUID) : Task τ × WorkerPool τ :=
  let r := stealLoop thiefID p.workers
  (r.1, { workers := r.2 })

/-- Go `WorkerPool.SubmitTask`; `r` is the value returned by
`rand.Intn(len(p.workers))`.  `none` stands for the index-out-of-range panic of
`p.workers[r]`. -/
def WorkerPool.SubmitTask {τ : Type} (p : WorkerPool τ) (r : Nat) (task : Task τ) :
    Option (WorkerPool τ) :=
  if p.workers.length = 0 then some p
  else
    match p.workers[r]? with
    | none => none
    | some w => some { workers := p.workers.set r { w with queue := w.queue.PushTask task } }

/-- What one iteration of the worker loop does after choosing its task. -/
inductive LoopEvent (τ ε : Type) where
  /-- No task: `time.Sleep(workerStealInterval)`. -/
  | slept (workerID : UUID)
  /-- The task returned the error: `slog.Error("error executing task", ...)`. -/
  | taskError (workerID : UUID) (task : τ) (err : ε)
  /-- The task returned nil: `slog.Info("task finished", ...)`. -/
  | taskFinished (workerID : UUID) (task : τ)
deriving DecidableEq, Repr

/-- The task an iteration executed, if any. -/
def LoopEvent.executed {τ ε : Type} : LoopEvent τ ε → Option τ
  | .slept _ => none
  | .taskError _ t _ => some t
  | .taskFinished _ t => some t

/-- One iteration of the `for` loop in `Worker.Start`, run by the worker at
position `i` of the pool; `exec t` is the error that calling `t` returns
(`none` for a nil error).  `none` as result: there is no worker at `i`. -/
def Worker.loopBody {τ ε : Type} (exec : τ → Option ε) (p : WorkerPool τ) (i : Nat) :
    Option (WorkerPool τ × LoopEvent τ ε) :=
  match p.workers[i]? with
  | none => none
  | some w =>
    let popped := w.queue.PopTask
    let p1 : WorkerPool τ := { workers := p.workers.set i { w with queue := popped.2 } }
    let r : Task τ × WorkerPool τ :=
      match popped.1 with
      | some t => (some t, p1)
      | none => p1.Steal w.id
    match r.1 with
    | none => some (r.2, .slept w.id)
    | some t =>
      match exec t with
      | some err => some (r.2, .taskError w.id t err)
      | none => some (r.2, .taskFinished w.id t)

/-! ## queue.go : Worker.Shutdown -/

/-- Go `queueShutdownInterval = 1 * time.Second`, in nanoseconds. -/
def queueShutdownInterval : Nat := 1000000000

/-- Go `workerStealInterval = 100 * time.Millisecond`, in nanoseconds. -/
def workerStealInterval : Nat := 100000000

/-- The log lines of the shutdown routine. -/
inductive ShutdownLog where
  /-- The line `slog.Info("shutting down worker", ...)`. -/
  | shuttingDown (timeout : Int)
  /-- The line `slog.Warn("waiting for task queue to finish", ...)`. -/
  | waiting (remainingTasks : Nat)
  /-- The line `slog.Warn("timeout reached while shutting down task queue", ...)`. -/
  | timeoutReached (remainingTasks : Nat)
deriving DecidableEq, Repr

/-- How the `for len(w.queue.tasks) > 0` loop of the routine ended. -/
structure ShutdownExit where
  /-- The logical clock (nanoseconds since the routine started) at the exit. -/
  clock : Nat
  /-- True when the loop was left through `case <-timeoutCh`. -/
  timedOut : Bool
  log : List ShutdownLog
deriving DecidableEq, Repr

/-- The `for len(w.queue.tasks) > 0 { select { ... } }` loop of `Shutdown`
under a logical clock.  The routine only reads the length of the queue;
`tasksAt c` is the content of the queue at clock `c`, as the worker loop and
the submitters leave it.  `timeoutCh` (`time.After(timeout)`) is ready exactly
when the clock has reached `timeout`; the `default` branch sleeps for
`queueShutdownInterval`. -/
def shutdownLoop {τ : Type} (tasksAt : Nat → List (Task τ)) (timeout : Int)
    (clock : Nat) (log : List ShutdownLog) : ShutdownExit :=
  if 0 < (tasksAt clock).length then
    if timeout ≤ (clock : Int) then
      { clock := clock, timedOut := true,
        log := log ++ [.timeoutReached (tasksAt clock).length] }
    else
      shutdownLoop tasksAt timeout (clock + queueShutdownInterval)
        (log ++ [.waiting (tasksAt clock).length])
  else
    { clock := clock, timedOut := false, log := log }
termination_by (timeout - (clock : Int)).toNat
decreasing_by
  simp only [queueShutdownInterval]
  omega

/-- What the goroutine started by `Shutdown` has done when it returns. -/
structure ShutdownResult (τ : Type) where
  /-- The logical clock at the return. -/
  clock : Nat
  timedOut : Bool
  log : List ShutdownLog
  /-- The queue as the routine leaves it. -/
  remaining : List (Task τ)
  /-- The number of `wg.Done()` calls made. -/
  wgDone : Nat

/-- Go `Worker.Shutdown(timeout)`: the body of its goroutine, started at clock
0.  The deferred `w.wg.Done()` runs once, when the body returns, on either
exit of the loop. -/
def Worker.Shutdown {τ : Type} (tasksAt : Nat → List (Task τ)) (timeout : Int) :
    ShutdownResult τ :=
  let e := shutdownLoop tasksAt timeout 0 [.shuttingDown timeout]
  { clock := e.clock, timedOut := e.timedOut, log := e.log,
    remaining := tasksAt e.clock, wgDone := 1 }

/-- A queue that holds the tasks `q` before clock `d` and is empty from `d`
onward. -/
def drainsAt {τ : Type} (d : Nat) (q : List (Task τ)) : Nat → List (Task τ) :=
  fun c => if c < d then q else []

/-! ## main.go and monitor.go : the endpoint flag -/

/-- Go `time.Second`: a `time.Duration` counts nanoseconds in an `int64`. -/
def timeSecond : Int := 1000000000

/-- Go `http.StatusOK`. -/
def httpStatusOK : Int := 200

/-- The value an `int64` computation yields for the exact result `x`. -/
def wrapInt64 (x : Int) : Int := (x + 2 ^ 63) % 2 ^ 64 - 2 ^ 63

/-- Go `a * b` on `time.Duration`. -/
def mulDuration (a b : Int) : Int := wrapInt64 (a * b)

/-- Go `Resource`; `U` is the type of parsed URLs (`*url.URL`). -/
structure Resource (U : Type) where
  Timeout : Int
  URL : U
  ExpectedStatusCode : Int
deriving DecidableEq, Repr

/-- How `resourceFlags.Set` fails: its three error returns and the panics of
`NewResource`. -/
inductive SetError where
  | invalidEndpoint
  | invalidStatusCode (err : String)
  | invalidTimeout (err : String)
  | panicked (msg : String)
deriving DecidableEq, Repr

/-- Go `NewResource`; `urlParse` is `url.Parse`.  An error result is the
message of the panic. -/
def NewResource {U : Type} (urlParse : String → Except String U) (endpoint : String)
    (status : Int) (timeout : Int) : Except String (Resource U) :=
  if endpoint = "" then .error "endpoint cannot be empty"
  else
    match urlParse endpoint with
    | .error e => .error ("invalid endpoint: " ++ e)
    | .ok parsedURL =>
      .ok { Timeout := mulDuration timeout timeSecond,
            URL := parsedURL,
            ExpectedStatusCode := status }

/-- Go `strings.Split(s, ",")` on the characters of `s`: the pieces between
the commas, at least one piece. -/
def splitComma : List Char → List (List Char)
  | [] => [[]]
  | c :: cs =>
    match splitComma cs with
    | [] => [[c]]
    | piece :: pieces => if c = ',' then [] :: piece :: pieces else (c :: piece) :: pieces

/-- Go `strings.Split(value, ",")`. -/
def stringsSplit (value : String) : List String := (splitComma value.toList).map String.mk

/-- Go `resourceFlags.Set`, on the list `f` of resources collected so far.
`atoi` is `strconv.Atoi` and `parseDuration` is `time.ParseDuration` (its
result in nanoseconds). -/
def resourceFlags.Set {U : Type} (atoi : String → Except String Int)
    (parseDuration : String → Except String Int) (urlParse : String → Except String U)
    (f : List (Resource U)) (value : String) : Except SetError (List (Resource U)) :=
  let parts := stringsSplit value
  if parts.length = 0 then .error .invalidEndpoint
  else
    let statusPart := parts.getD 1 ""
    let status : Except String Int :=
      if 1 < parts.length ∧ statusPart ≠ "" then atoi statusPart else .ok httpStatusOK
    match status with
    | .error e => .error (.invalidStatusCode e)
    | .ok status =>
      let timeoutPart := parts.getD 2 ""
      let timeout : Except String Int :=
        if 2 < parts.length ∧ timeoutPart ≠ "" then parseDuration timeoutPart
        else .ok (5 * timeSecond)
      match timeout with
      | .error e => .error (.invalidTimeout e)
      | .ok timeout =>
        match NewResource urlParse (parts.getD 0 "") status timeout with
        | .error msg => .error (.panicked msg)
        | .ok r => .ok (f ++ [r])

/-- A stand-in for `strconv.Atoi` that knows the one numeral "200". -/
def atoi200 (s : String) : Except String Int :=
  if s = "200" then .ok 200 else .error "invalid syntax"

/-- A stand-in for `time.ParseDuration` that knows the one duration "10s". -/
def parseDuration10s (s : String) : Except String Int :=
  if s = "10s" then .ok (10 * timeSecond) else .error "invalid duration"

/-! ## Runs of the pool: submissions and loop iterations -/

/-- A pool together with the history of the run: the jobs submitted so far and
the events of the loop iterations so far, both in order of occurrence. -/
structure Sim (τ ε : Type) where
  pool : WorkerPool τ
  submitted : List τ
  events : List (LoopEvent τ ε)

/-- One step of a run.  `submit job r`: `SubmitTask(job)` where `rand.Intn`
returned `r`.  `iterate i err`: one iteration of the loop of the worker at
position `i`; `err` is what the task returns if one is executed. -/
inductive Action (τ ε : Type) where
  | submit (job : τ) (r : Nat)
  | iterate (i : Nat) (err : Option ε)
deriving DecidableEq, Repr

/-- The action refers to a worker of a pool of `n` workers. -/
def Action.valid {τ ε : Type} (n : Nat) : Action τ ε → Prop
  | .submit _ r => r < n
  | .iterate i _ => i < n

instance {τ ε : Type} (n : Nat) (a : Action τ ε) : Decidable (a.valid n) := by
  cases a <;> simp only [Action.valid] <;> exact inferInstance

/-- The job an action submits, if it is a submission. -/
def Action.job {τ ε : Type} : Action τ ε → Option τ
  | .submit j _ => some j
  | .iterate _ _ => none

/-- Performs one action; `none` when the action names no worker of the pool. -/
def Sim.step {τ ε : Type} (s : Sim τ ε) : Action τ ε → Option (Sim τ ε)
  | .submit job r =>
    match s.pool.SubmitTask r (some job) with
    | none => none
    | some q => some { s with pool := q, submitted := s.submitted ++ [job] }
  | .iterate i err =>
    match Worker.loopBody (fun _ => err) s.pool i with
    | none => none
    | some (q, ev) => some { s with pool := q, events := s.events ++ [ev] }

/-- Performs the actions from left to right. -/
def Sim.run {τ ε : Type} : Sim τ ε → List (Action τ ε) → Option (Sim τ ε)
  | s, [] => some s
  | s, a :: as =>
    match s.step a with
    | none => none
    | some s1 => Sim.run s1 as

/-- The callable tasks in the queue of a worker. -/
def Worker.pending {τ : Type} (w : Worker τ) : Multiset τ := ↑(w.queue.tasks.reduceOption)

/-- The jobs still queued anywhere in the pool. -/
def queued {τ : Type} (ws : List (Worker τ)) : Multiset τ := (ws.map Worker.pending).sum

/-- The jobs executed so far, in order of execution. -/
def Sim.executed {τ ε : Type} (s : Sim τ ε) : List τ := s.events.filterMap LoopEvent.executed

/-- The run of the single-worker scenario: the jobs `js` are submitted one
after the other (`rand.Intn(1)` can only return 0), then the worker at position
0 performs one loop iteration per entry of `errs`, the outcome of the task it
executes being that entry. -/
def fifoActions {τ ε : Type} (js : List τ) (errs : List (Option ε)) : List (Action τ ε) :=
  js.map (fun j => Action.submit j 0) ++ errs.map (fun e => Action.iterate 0 e)

/-- The event the worker `id` logs after executing `j` with outcome `e`. -/
def outcomeEvent {τ ε : Type} (id : UUID) (j : τ) (e : Option ε) : LoopEvent τ ε :=
  match e with
  | some err => .taskError id j err
  | none => .taskFinished id j

/-! ## Predicates and helpers used in the statements -/

/-- Every task stored in a queue of the workers is a callable (non-nil) task. -/
def NonNilTasks {τ : Type} (ws : List (Worker τ)) : Prop :=
  ∀ w ∈ ws, ∀ t ∈ w.queue.tasks, t ≠ none

instance {τ : Type} (ws : List (Worker τ)) : Decidable (NonNilTasks ws) :=
  decidable_of_iff (∀ w ∈ ws, ∀ t ∈ w.queue.tasks, t.isSome = true) (by
    constructor
    · intro h w hw t ht e
      have h2 := h w hw t ht
      rw [e] at h2
      exact Bool.noConfusion h2
    · intro h w hw t ht
      cases t with
      | none => exact absurd rfl (h w hw none ht)
      | some x => rfl)

/-- The worker `w` with its queue replaced by the task list `ts`. -/
def Worker.withTasks {τ : Type} (w : Worker τ) (ts : List (Task τ)) : Worker τ :=
  { w with queue := { tasks := ts } }

/-- The multiset holding the task, empty for nil. -/
def taskBag {τ : Type} (t : Task τ) : Multiset τ := ↑t.toList

/-! ## Lemmas on the queue -/

theorem popN_all {τ : Type} (ts : List (Task τ)) :
    TaskQueue.popN ts.length { tasks := ts } = (ts, { tasks := [] }) := by
  induction ts with
  | nil => rfl
  | cons t ts ih => simp [TaskQueue.popN, TaskQueue.PopTask, ih]

/-! ## Lemmas on stealing -/

theorem stealLoop_spec {τ : Type} (thiefID : UUID) (ws : List (Worker τ))
    (hn : NonNilTasks ws) :
    (∃ pre v post t rest, ws = pre ++ v :: post ∧ v.id ≠ thiefID
        ∧ v.queue.tasks = some t :: rest
        ∧ (∀ u ∈ pre, u.id = thiefID ∨ u.queue.tasks = [])
        ∧ stealLoop thiefID ws = (some t, pre ++ v.withTasks rest :: post))
    ∨ ((∀ u ∈ ws, u.id ≠ thiefID → u.queue.tasks = [])
        ∧ stealLoop thiefID ws = (none, ws)) := by
  induction ws with
  | nil => right; exact ⟨by simp, rfl⟩
  | cons w ws ih =>
    have hn2 : NonNilTasks ws := fun u hu => hn u (List.mem_cons_of_mem _ hu)
    have skip : (w.id = thiefID ∨ w.queue.tasks = []) →
        stealLoop thiefID (w :: ws) = ((stealLoop thiefID ws).1, w :: (stealLoop thiefID ws).2) := by
      intro h
      rcases h with h | h
      · simp [stealLoop, h]
      · by_cases hid : w.id = thiefID
        · simp [stealLoop, hid]
        · simp [stealLoop, hid, TaskQueue.PopTask, h]
    by_cases hs : w.id = thiefID ∨ w.queue.tasks = []
    · rcases ih hn2 with ⟨pre, v, post, t, rest, e, hv, hq, hpre, hst⟩ | ⟨hall, hst⟩
      · left
        refine ⟨w :: pre, v, post, t, rest, by simp [e], hv, hq, ?_, ?_⟩
        · intro u hu
          rcases List.mem_cons.mp hu with rfl | hu
          · exact hs
          · exact hpre u hu
        · rw [skip hs, hst]; rfl
      · right
        refine ⟨?_, ?_⟩
        · intro u hu hne
          rcases List.mem_cons.mp hu with rfl | hu
          · rcases hs with h | h
            · exact absurd h hne
            · exact h
          · exact hall u hu hne
        · rw [skip hs, hst]
    · left
      have hid : w.id ≠ thiefID := fun h => hs (Or.inl h)
      have hq : w.queue.tasks ≠ [] := fun h => hs (Or.inr h)
      obtain ⟨t, rest, e⟩ := List.exists_cons_of_ne_nil hq
      have ht : t ≠ none := hn w (List.mem_cons_self _ _) t (by simp [e])
      obtain ⟨t1, rfl⟩ := Option.ne_none_iff_exists'.mp ht
      refine ⟨[], w, ws, t1, rest, rfl, hid, e, by simp, ?_⟩
      simp [stealLoop, hid, TaskQueue.PopTask, e, Worker.withTasks]

/-! ## Lemmas on the loop body -/

theorem set_same {α : Type} (l : List α) (i : Nat) (a : α) (h : l[i]? = some a) :
    l.set i a = l := by
  induction l generalizing i with
  | nil => rfl
  | cons x xs ih =>
    cases i with
    | zero => simp at h; simp [h]
    | succ i => simp at h; simp [ih i h]

theorem loopBody_own {τ ε : Type} (exec : τ → Option ε) (p : WorkerPool τ) (i : Nat)
    (w : Worker τ) (hw : p.workers[i]? = some w) (t : τ) (rest : List (Task τ))
    (hq : w.queue.tasks = some t :: rest) :
    Worker.loopBody exec p i
      = some ({ workers := p.workers.set i (w.withTasks rest) },
          match exec t with
          | some err => .taskError w.id t err
          | none => .taskFinished w.id t) := by
  simp only [Worker.loopBody, hw, TaskQueue.PopTask, hq, Worker.withTasks]
  cases exec t <;> rfl

theorem loopBody_idle {τ ε : Type} (exec : τ → Option ε) (p : WorkerPool τ) (i : Nat)
    (w : Worker τ) (hw : p.workers[i]? = some w) (hq : w.queue.tasks = []) :
    Worker.loopBody exec p i
      = some ((p.Steal w.id).2,
          match (p.Steal w.id).1 with
          | none => .slept w.id
          | some t =>
            match exec t with
            | some err => .taskError w.id t err
            | none => .taskFinished w.id t) := by
  obtain ⟨ws⟩ := p
  have e : ws.set i { w with queue := w.queue } = ws := set_same _ _ _ hw
  simp only at hw
  simp only [Worker.loopBody, hw, TaskQueue.PopTask, hq, e]
  cases hs : (WorkerPool.Steal { workers := ws } w.id).1 with
  | none => rfl
  | some t => cases hx : exec t <;> simp [hx]

theorem steal_none_unchanged {τ : Type} (p : WorkerPool τ) (thiefID : UUID)
    (hn : NonNilTasks p.workers) (h : (p.Steal thiefID).1 = none) :
    (p.Steal thiefID).2 = p := by
  rcases stealLoop_spec thiefID p.workers hn with
    ⟨pre, v, post, t, rest, _, _, _, _, hst⟩ | ⟨_, hst⟩
  · simp [WorkerPool.Steal, hst] at h
  · simp [WorkerPool.Steal, hst]

/-! ## Lemmas on conservation of jobs -/

theorem pending_pop {τ : Type} (w : Worker τ) :
    w.pending = taskBag w.queue.PopTask.1
      + Worker.pending { w with queue := w.queue.PopTask.2 } := by
  obtain ⟨id, ⟨ts⟩⟩ := w
  cases ts with
  | nil => simp [Worker.pending, TaskQueue.PopTask, taskBag]
  | cons t ts =>
    cases t with
    | none => simp [Worker.pending, TaskQueue.PopTask, taskBag, List.reduceOption_cons_of_none]
    | some t =>
      simp only [Worker.pending, TaskQueue.PopTask, taskBag, List.reduceOption_cons_of_some,
        Option.toList]
      rfl

theorem queued_cons {τ : Type} (w : Worker τ) (ws : List (Worker τ)) :
    queued (w :: ws) = w.pending + queued ws := by
  simp [queued]

theorem queued_set {τ : Type} (ws : List (Worker τ)) (i : Nat) (w v : Worker τ)
    (h : ws[i]? = some w) :
    queued (ws.set i v) + w.pending = queued ws + v.pending := by
  induction ws generalizing i with
  | nil => simp at h
  | cons x xs ih =>
    cases i with
    | zero =>
      simp at h
      subst h
      simp only [List.set_cons_zero, queued_cons]
      abel
    | succ i =>
      simp at h
      have e := ih i h
      simp only [List.set_cons_succ, queued_cons]
      rw [add_assoc, e, add_assoc]

theorem stealLoop_length {τ : Type} (thiefID : UUID) (ws : List (Worker τ)) :
    (stealLoop thiefID ws).2.length = ws.length := by
  induction ws with
  | nil => rfl
  | cons w ws ih =>
    by_cases hid : w.id = thiefID
    · simp [stealLoop, hid, ih]
    · cases hp : w.queue.PopTask with
      | mk t q =>
        cases t with
        | none => simp [stealLoop, hid, hp, ih]
        | some t => simp [stealLoop, hid, hp]

theorem stealLoop_queued {τ : Type} (thiefID : UUID) (ws : List (Worker τ)) :
    queued ws = taskBag (stealLoop thiefID ws).1 + queued (stealLoop thiefID ws).2 := by
  induction ws with
  | nil => simp [stealLoop, queued, taskBag]
  | cons w ws ih =>
    by_cases hid : w.id = thiefID
    · simp only [stealLoop, hid, ne_eq, not_true_eq_false, if_false, queued_cons]
      rw [ih]
      abel
    · have hpop := pending_pop w
      cases hp : w.queue.PopTask with
      | mk t q =>
        rw [hp] at hpop
        cases t with
        | none =>
          simp only [stealLoop, hid, ne_eq, not_false_eq_true, if_true, hp, queued_cons]
          rw [hpop, ih]
          simp only [taskBag, Option.toList, Multiset.coe_nil, zero_add]
          abel
        | some t =>
          simp only [stealLoop, hid, ne_eq, not_false_eq_true, if_true, hp, queued_cons]
          rw [hpop, add_assoc]

theorem loopBody_conserve {τ ε : Type} (exec : τ → Option ε) (p : WorkerPool τ) (i : Nat)
    (hi : i < p.workers.length) :
    ∃ q ev, Worker.loopBody exec p i = some (q, ev)
      ∧ q.workers.length = p.workers.length
      ∧ queued p.workers = taskBag ev.executed + queued q.workers := by
  obtain ⟨ws⟩ := p
  simp only at hi
  have hw : ws[i]? = some (ws.get ⟨i, hi⟩) := by simp [List.getElem?_eq_getElem hi]
  generalize ws.get ⟨i, hi⟩ = w at hw
  have hpop := pending_pop w
  have hset := queued_set ws i w { w with queue := w.queue.PopTask.2 } hw
  cases hp : w.queue.PopTask with
  | mk t q0 =>
    rw [hp] at hpop hset
    simp only at hpop hset
    cases t with
    | some t =>
      have hq : queued ws = taskBag (some t) + queued (ws.set i { w with queue := q0 }) := by
        have h3 : queued (ws.set i { w with queue := q0 })
            + (taskBag (some t) + Worker.pending { w with queue := q0 })
            = queued ws + Worker.pending { w with queue := q0 } := by rw [← hpop]; exact hset
        have h4 : (taskBag (some t) + queued (ws.set i { w with queue := q0 }))
            + Worker.pending { w with queue := q0 }
            = queued ws + Worker.pending { w with queue := q0 } := by
          rw [← h3]; abel
        exact (add_right_cancel h4).symm
      cases hx : exec t with
      | none =>
        exact ⟨_, .taskFinished w.id t, by simp [Worker.loopBody, hw, hp, hx],
          by simp, hq⟩
      | some err =>
        exact ⟨_, .taskError w.id t err, by simp [Worker.loopBody, hw, hp, hx],
          by simp, hq⟩
    | none =>
      have hq : queued ws = queued (ws.set i { w with queue := q0 }) := by
        have h3 : queued (ws.set i { w with queue := q0 })
            + (taskBag (none : Task τ) + Worker.pending { w with queue := q0 })
            = queued ws + Worker.pending { w with queue := q0 } := by rw [← hpop]; exact hset
        simp only [taskBag, Option.toList, Multiset.coe_nil, zero_add] at h3
        exact (add_right_cancel h3).symm
      have hlen := stealLoop_length w.id (ws.set i { w with queue := q0 })
      have hcons := stealLoop_queued w.id (ws.set i { w with queue := q0 })
      rw [← hq] at hcons
      generalize hst : stealLoop w.id (ws.set i { w with queue := q0 }) = st at hlen hcons
      obtain ⟨t1, ws1⟩ := st
      simp only [List.length_set] at hlen hcons
      cases t1 with
      | none =>
        exact ⟨{ workers := ws1 }, .slept w.id, by
          simp [Worker.loopBody, hw, hp, WorkerPool.Steal, hst], hlen, hcons⟩
      | some t =>
        cases hx : exec t with
        | none =>
          exact ⟨{ workers := ws1 }, .taskFinished w.id t, by
            simp [Worker.loopBody, hw, hp, WorkerPool.Steal, hst, hx], hlen, hcons⟩
        | some err =>
          exact ⟨{ workers := ws1 }, .taskError w.id t err, by
            simp [Worker.loopBody, hw, hp, WorkerPool.Steal, hst, hx], hlen, hcons⟩

theorem submit_conserve {τ : Type} (p : WorkerPool τ) (r : Nat) (j : τ)
    (hr : r < p.workers.length) :
    ∃ q, p.SubmitTask r (some j) = some q
      ∧ q.workers.length = p.workers.length
      ∧ queued q.workers = queued p.workers + {j} := by
  have hw : p.workers[r]? = some (p.workers.get ⟨r, hr⟩) := by
    simp [List.getElem?_eq_getElem hr]
  generalize p.workers.get ⟨r, hr⟩ = w at hw
  have hne : p.workers.length ≠ 0 := by omega
  refine ⟨{ workers := p.workers.set r { w with queue := w.queue.PushTask (some j) } },
    by simp only [WorkerPool.SubmitTask, hne, if_false, hw], by simp, ?_⟩
  have hset := queued_set p.workers r w { w with queue := w.queue.PushTask (some j) } hw
  have hpend : Worker.pending { w with queue := w.queue.PushTask (some j) }
      = w.pending + {j} := by
    simp only [Worker.pending, TaskQueue.PushTask, List.reduceOption_append]
    rw [← Multiset.coe_add]
    rfl
  rw [hpend, ← add_assoc] at hset
  simp only
  have h5 : queued (p.workers.set r { w with queue := w.queue.PushTask (some j) }) + w.pending
      = (queued p.workers + {j}) + w.pending := by
    rw [hset]; abel
  exact add_right_cancel h5

theorem step_invariant {τ ε : Type} (s : Sim τ ε) (a : Action τ ε)
    (hv : a.valid s.pool.workers.length)
    (hinv : (↑s.submitted : Multiset τ) = queued s.pool.workers + ↑s.executed) :
    ∃ s1, s.step a = some s1
      ∧ s1.pool.workers.length = s.pool.workers.length
      ∧ (↑s1.submitted : Multiset τ) = queued s1.pool.workers + ↑s1.executed
      ∧ s1.submitted = s.submitted ++ a.job.toList := by
  cases a with
  | submit j r =>
    obtain ⟨q, hq, hlen, hcons⟩ := submit_conserve s.pool r j hv
    refine ⟨{ s with pool := q, submitted := s.submitted ++ [j] }, by simp [Sim.step, hq],
      hlen, ?_, rfl⟩
    simp only [Sim.executed] at hinv ⊢
    rw [hcons, ← Multiset.coe_add, hinv]
    show _ + ((↑[j] : Multiset τ)) = _
    rw [Multiset.coe_singleton]
    abel
  | iterate i err =>
    obtain ⟨q, ev, hq, hlen, hcons⟩ := loopBody_conserve (fun _ => err) s.pool i hv
    refine ⟨{ s with pool := q, events := s.events ++ [ev] }, by simp [Sim.step, hq],
      hlen, ?_, by simp [Action.job]⟩
    have hex : (↑(List.filterMap LoopEvent.executed (s.events ++ [ev])) : Multiset τ)
        = ↑(List.filterMap LoopEvent.executed s.events) + taskBag ev.executed := by
      rw [List.filterMap_append, ← Multiset.coe_add]
      congr 2
    simp only [Sim.executed] at hinv ⊢
    rw [hex, hinv, hcons]
    abel

theorem run_invariant {τ ε : Type} (acts : List (Action τ ε)) (s : Sim τ ε)
    (hv : ∀ a ∈ acts, a.valid s.pool.workers.length)
    (hinv : (↑s.submitted : Multiset τ) = queued s.pool.workers + ↑s.executed) :
    ∃ s1, s.run acts = some s1
      ∧ s1.pool.workers.length = s.pool.workers.length
      ∧ (↑s1.submitted : Multiset τ) = queued s1.pool.workers + ↑s1.executed
      ∧ s1.submitted = s.submitted ++ acts.filterMap Action.job := by
  induction acts generalizing s with
  | nil => exact ⟨s, rfl, rfl, hinv, by simp⟩
  | cons a as ih =>
    obtain ⟨s1, hs1, hlen1, hinv1, hsub1⟩ :=
      step_invariant s a (hv a (List.mem_cons_self _ _)) hinv
    have hv1 : ∀ b ∈ as, b.valid s1.pool.workers.length := by
      intro b hb
      rw [hlen1]
      exact hv b (List.mem_cons_of_mem _ hb)
    obtain ⟨s2, hs2, hlen2, hinv2, hsub2⟩ := ih s1 hv1 hinv1
    refine ⟨s2, by simp [Sim.run, hs1, hs2], by rw [hlen2, hlen1], hinv2, ?_⟩
    rw [hsub2, hsub1]
    cases a <;> simp [Action.job, List.filterMap_cons]

theorem queued_of_all_empty {τ : Type} (ws : List (Worker τ))
    (h : ∀ w ∈ ws, w.queue.tasks = []) : queued ws = 0 := by
  induction ws with
  | nil => rfl
  | cons w ws ih =>
    rw [queued_cons, ih (fun u hu => h u (List.mem_cons_of_mem _ hu))]
    simp [Worker.pending, h w (List.mem_cons_self _ _)]

/-! ## Lemmas on the pool of one worker -/

theorem run_append {τ ε : Type} (as bs : List (Action τ ε)) (s : Sim τ ε) :
    s.run (as ++ bs) = (s.run as).bind (fun s1 => s1.run bs) := by
  induction as generalizing s with
  | nil => rfl
  | cons a as ih =>
    simp only [List.cons_append, Sim.run]
    cases s.step a with
    | none => rfl
    | some s1 => exact ih s1

theorem steal_single_self {τ : Type} (id : UUID) (q : TaskQueue τ) :
    WorkerPool.Steal { workers := [⟨id, q⟩] } id = (none, { workers := [⟨id, q⟩] }) := by
  simp [WorkerPool.Steal, stealLoop]

theorem run_submits {τ ε : Type} (id : UUID) (js : List τ) (ts : List (Task τ))
    (sub : List τ) (evs : List (LoopEvent τ ε)) :
    Sim.run { pool := { workers := [⟨id, ⟨ts⟩⟩] }, submitted := sub, events := evs }
        (js.map (fun j => Action.submit j 0))
      = some { pool := { workers := [⟨id, ⟨ts ++ js.map some⟩⟩] },
               submitted := sub ++ js, events := evs } := by
  induction js generalizing ts sub with
  | nil => simp [Sim.run]
  | cons j js ih =>
    simp only [List.map_cons, Sim.run, Sim.step, WorkerPool.SubmitTask, TaskQueue.PushTask]
    simp only [List.length_singleton, one_ne_zero, if_false, List.getElem?_cons_zero,
      List.set_cons_zero]
    rw [ih]
    simp

theorem run_iterates {τ ε : Type} (id : UUID) (js : List τ) (errs : List (Option ε))
    (hlen : errs.length = js.length) (sub : List τ) (evs : List (LoopEvent τ ε)) :
    Sim.run { pool := { workers := [⟨id, ⟨js.map some⟩⟩] }, submitted := sub, events := evs }
        (errs.map (fun e => Action.iterate 0 e))
      = some { pool := { workers := [⟨id, ⟨[]⟩⟩] }, submitted := sub,
               events := evs ++ List.zipWith (outcomeEvent id) js errs } := by
  induction js generalizing errs evs with
  | nil =>
    cases errs with
    | nil => simp [Sim.run]
    | cons e es => simp at hlen
  | cons j js ih =>
    cases errs with
    | nil => simp at hlen
    | cons e es =>
      have hl : es.length = js.length := by simpa using hlen
      simp only [List.map_cons, Sim.run, Sim.step, Worker.loopBody, TaskQueue.PopTask,
        List.getElem?_cons_zero, List.set_cons_zero]
      cases e with
      | none =>
        simp only []
        rw [ih es hl]
        simp [outcomeEvent]
      | some err =>
        simp only []
        rw [ih es hl]
        simp [outcomeEvent]

theorem step_single {τ ε : Type} (id : UUID) (s s1 : Sim τ ε) (a : Action τ ε)
    (q : TaskQueue τ) (hs : s.pool.workers = [⟨id, q⟩]) (h : s.step a = some s1) :
    ∃ q1, s1.pool.workers = [⟨id, q1⟩] := by
  obtain ⟨⟨ws⟩, sub, evs⟩ := s
  simp only at hs
  subst hs
  cases a with
  | submit j r =>
    cases r with
    | zero =>
      simp [Sim.step, WorkerPool.SubmitTask] at h
      subst h
      exact ⟨_, rfl⟩
    | succ r => simp [Sim.step, WorkerPool.SubmitTask] at h
  | iterate i err =>
    cases i with
    | zero =>
      simp only [Sim.step, Worker.loopBody, List.getElem?_cons_zero, List.set_cons_zero] at h
      cases hp : q.PopTask.1 with
      | none =>
        simp only [hp, steal_single_self] at h
        simp at h
        subst h
        exact ⟨_, rfl⟩
      | some t =>
        simp only [hp] at h
        cases err <;> simp at h <;> subst h <;> exact ⟨_, rfl⟩
    | succ i => simp [Sim.step, Worker.loopBody] at h

theorem run_single {τ ε : Type} (id : UUID) (acts : List (Action τ ε)) (s s1 : Sim τ ε)
    (q : TaskQueue τ) (hs : s.pool.workers = [⟨id, q⟩]) (h : s.run acts = some s1) :
    ∃ q1, s1.pool.workers = [⟨id, q1⟩] := by
  induction acts generalizing s q with
  | nil =>
    simp [Sim.run] at h
    subst h
    exact ⟨q, hs⟩
  | cons a as ih =>
    simp only [Sim.run] at h
    cases hst : s.step a with
    | none => simp [hst] at h
    | some s2 =>
      simp only [hst] at h
      obtain ⟨q2, hq2⟩ := step_single id s s2 a q hs hst
      exact ih s2 q2 hq2 h

/-! ## Lemmas on the shutdown loop -/

theorem shutdownLoop_drains {τ : Type} (tasksAt : Nat → List (Task τ)) (timeout : Int)
    (d : Nat) (hd : (d : Int) < timeout)
    (hbefore : ∀ c, c < d → tasksAt c ≠ [])
    (hafter : ∀ c, d ≤ c → tasksAt c = [])
    (n : Nat) (clock : Nat) (log : List ShutdownLog)
    (hreach : d ≤ clock + n * queueShutdownInterval)
    (hfirst : n ≠ 0 → clock + (n - 1) * queueShutdownInterval < d) :
    (shutdownLoop tasksAt timeout clock log).clock = clock + n * queueShutdownInterval
    ∧ (shutdownLoop tasksAt timeout clock log).timedOut = false := by
  induction n generalizing clock log with
  | zero =>
    have h0 : tasksAt clock = [] := hafter clock (by simpa using hreach)
    rw [shutdownLoop]
    simp [h0]
  | succ n ih =>
    have hlt : clock < d := by
      have h := hfirst (Nat.succ_ne_zero n)
      have h2 : clock ≤ clock + (n + 1 - 1) * queueShutdownInterval := Nat.le_add_right _ _
      omega
    have hne : 0 < (tasksAt clock).length := List.length_pos.mpr (hbefore clock hlt)
    have hnt : ¬ timeout ≤ (clock : Int) := by omega
    rw [shutdownLoop]
    simp only [hne, if_true, hnt, if_false]
    have hr2 : d ≤ clock + queueShutdownInterval + n * queueShutdownInterval := by
      have e : clock + (n + 1) * queueShutdownInterval
          = clock + queueShutdownInterval + n * queueShutdownInterval := by ring
      omega
    have hf2 : n ≠ 0 → clock + queueShutdownInterval + (n - 1) * queueShutdownInterval < d := by
      intro hn
      have h := hfirst (Nat.succ_ne_zero n)
      have e : clock + (n + 1 - 1) * queueShutdownInterval
          = clock + queueShutdownInterval + (n - 1) * queueShutdownInterval := by
        obtain ⟨m, rfl⟩ := Nat.exists_eq_succ_of_ne_zero hn
        simp only [Nat.succ_eq_add_one, Nat.add_sub_cancel]; ring
      rw [← e]; exact h
    obtain ⟨h1, h2⟩ := ih (clock + queueShutdownInterval) _ hr2 hf2
    refine ⟨?_, h2⟩
    rw [h1]
    ring

theorem shutdownLoop_times_out {τ : Type} (tasksAt : Nat → List (Task τ)) (timeout : Int)
    (hstay : ∀ c, tasksAt c ≠ [])
    (n : Nat) (clock : Nat) (log : List ShutdownLog)
    (hreach : timeout ≤ ((clock + n * queueShutdownInterval : Nat) : Int))
    (hfirst : n ≠ 0 → ((clock + (n - 1) * queueShutdownInterval : Nat) : Int) < timeout) :
    (shutdownLoop tasksAt timeout clock log).clock = clock + n * queueShutdownInterval
    ∧ (shutdownLoop tasksAt timeout clock log).timedOut = true
    ∧ (shutdownLoop tasksAt timeout clock log).log.getLast?
        = some (.timeoutReached (tasksAt (clock + n * queueShutdownInterval)).length) := by
  induction n generalizing clock log with
  | zero =>
    have hne : 0 < (tasksAt clock).length := List.length_pos.mpr (hstay clock)
    have ht : timeout ≤ (clock : Int) := by simpa using hreach
    rw [shutdownLoop]
    simp [hne, ht]
  | succ n ih =>
    have hne : 0 < (tasksAt clock).length := List.length_pos.mpr (hstay clock)
    have hnt : ¬ timeout ≤ (clock : Int) := by
      have h := hfirst (Nat.succ_ne_zero n)
      have h2 : clock ≤ clock + (n + 1 - 1) * queueShutdownInterval := Nat.le_add_right _ _
      omega
    rw [shutdownLoop]
    simp only [hne, if_true, hnt, if_false]
    have e1 : clock + (n + 1) * queueShutdownInterval
        = clock + queueShutdownInterval + n * queueShutdownInterval := by ring
    have hr2 : timeout
        ≤ ((clock + queueShutdownInterval + n * queueShutdownInterval : Nat) : Int) := by
      rw [← e1]; exact hreach
    have hf2 : n ≠ 0 →
        ((clock + queueShutdownInterval + (n - 1) * queueShutdownInterval : Nat) : Int)
          < timeout := by
      intro hn
      have h := hfirst (Nat.succ_ne_zero n)
      have e : clock + (n + 1 - 1) * queueShutdownInterval
          = clock + queueShutdownInterval + (n - 1) * queueShutdownInterval := by
        obtain ⟨m, rfl⟩ := Nat.exists_eq_succ_of_ne_zero hn
        simp only [Nat.succ_eq_add_one, Nat.add_sub_cancel]; ring
      rw [← e]; exact h
    obtain ⟨h1, h2, h3⟩ := ih (clock + queueShutdownInterval) _ hr2 hf2
    rw [e1]
    exact ⟨h1, h2, h3⟩

/-! ## Theorems -/

/-- C4: the queue is FIFO.  `PushTask j` on contents `ts` leaves `ts ++ [j]`;
`ts.length + 1` pops then return the elements of `ts` followed by `j`, in that
order, and leave the queue empty.  With `ts = []`, a push followed by one pop
returns exactly `j` and leaves the queue empty. -/
theorem C4_queue_fifo {τ : Type} (ts : List (Task τ)) (j : Task τ) :
    (TaskQueue.PushTask { tasks := ts } j).tasks = ts ++ [j]
    ∧ TaskQueue.popN (ts.length + 1) (TaskQueue.PushTask { tasks := ts } j)
        = (ts ++ [j], { tasks := [] })
    ∧ (TaskQueue.PushTask (NewTaskQueue) j).PopTask = (j, { tasks := [] }) := by
  refine ⟨rfl, ?_, rfl⟩
  have h := popN_all (ts ++ [j])
  simpa [TaskQueue.PushTask] using h

/-- C5: `PopTask` is a total function.  On an empty queue it returns nil and
leaves the queue empty; on a queue `t :: rest` it returns the head `t` and
leaves exactly `rest`, in the original order and one element shorter. -/
theorem C5_pop_total {τ : Type} :
    TaskQueue.PopTask ({ tasks := [] } : TaskQueue τ) = (none, { tasks := [] })
    ∧ ∀ (t : Task τ) (rest : List (Task τ)),
        TaskQueue.PopTask { tasks := t :: rest } = (t, { tasks := rest })
        ∧ (TaskQueue.PopTask { tasks := t :: rest }).2.tasks.length + 1
            = (t :: rest).length :=
  ⟨rfl, fun _ _ => ⟨rfl, rfl⟩⟩

/-- C1: `Steal` on a pool whose queues hold non-nil tasks, for any thief id.
Either the pool splits as `pre ++ v :: post` where `v` is the first worker in
pool order with an id other than the thief's and a non-empty queue
`some t :: rest`; then `Steal` returns `t` and the pool in which only the queue
of `v` changed, to `rest` (one shorter); or every worker other than the thief
has an empty queue, and `Steal` returns nil and the pool unchanged.  With two
workers `A` (empty) and `B` (head `t`), in either pool order, `Steal A.id`
returns `t` and shortens the queue of `B` by exactly one.  (The ids need not be
distinct for this to hold.) -/
theorem C1_steal_first_nonempty {τ : Type} (p : WorkerPool τ) (thiefID : UUID)
    (hn : NonNilTasks p.workers) :
    ((∃ pre v post t rest, p.workers = pre ++ v :: post ∧ v.id ≠ thiefID
        ∧ v.queue.tasks = some t :: rest
        ∧ (∀ u ∈ pre, u.id = thiefID ∨ u.queue.tasks = [])
        ∧ p.Steal thiefID = (some t, { workers := pre ++ v.withTasks rest :: post })
        ∧ (v.withTasks rest).queue.tasks.length + 1 = v.queue.tasks.length)
      ∨ ((∀ u ∈ p.workers, u.id ≠ thiefID → u.queue.tasks = [])
        ∧ p.Steal thiefID = (none, p)))
    ∧ (∀ (a b : UUID) (t : τ) (rest : List (Task τ)), a ≠ b →
        WorkerPool.Steal { workers := [⟨a, ⟨[]⟩⟩, ⟨b, ⟨some t :: rest⟩⟩] } a
          = (some t, { workers := [⟨a, ⟨[]⟩⟩, ⟨b, ⟨rest⟩⟩] })
        ∧ WorkerPool.Steal { workers := [⟨b, ⟨some t :: rest⟩⟩, ⟨a, ⟨[]⟩⟩] } a
          = (some t, { workers := [⟨b, ⟨rest⟩⟩, ⟨a, ⟨[]⟩⟩] })) := by
  refine ⟨?_, ?_⟩
  · rcases stealLoop_spec thiefID p.workers hn with
      ⟨pre, v, post, t, rest, e, hv, hq, hpre, hst⟩ | ⟨hall, hst⟩
    · left
      refine ⟨pre, v, post, t, rest, e, hv, hq, hpre, ?_, ?_⟩
      · simp [WorkerPool.Steal, hst]
      · simp [Worker.withTasks, hq]
    · right
      refine ⟨hall, ?_⟩
      simp [WorkerPool.Steal, hst]
  · intro a b t rest hab
    have hba : b ≠ a := fun h => hab h.symm
    constructor
    · simp [WorkerPool.Steal, stealLoop, TaskQueue.PopTask, hba]
    · simp [WorkerPool.Steal, stealLoop, TaskQueue.PopTask, hba]

/-- C1 at the pool of an idle worker 1 and a worker 2 holding the tasks 5
and 6, with worker 1 as the thief. -/
theorem C1_steal_first_nonempty_witness :
    NonNilTasks (τ := Nat) [⟨1, ⟨[]⟩⟩, ⟨2, ⟨[some 5, some 6]⟩⟩]
    ∧ ((∃ pre v post t rest,
          ([⟨1, ⟨[]⟩⟩, ⟨2, ⟨[some 5, some 6]⟩⟩] : List (Worker Nat)) = pre ++ v :: post
          ∧ v.id ≠ 1 ∧ v.queue.tasks = some t :: rest
          ∧ (∀ u ∈ pre, u.id = 1 ∨ u.queue.tasks = [])
          ∧ WorkerPool.Steal { workers := [⟨1, ⟨[]⟩⟩, ⟨2, ⟨[some 5, some 6]⟩⟩] } 1
              = (some t, { workers := pre ++ v.withTasks rest :: post })
          ∧ (v.withTasks rest).queue.tasks.length + 1 = v.queue.tasks.length)
        ∨ ((∀ u ∈ ([⟨1, ⟨[]⟩⟩, ⟨2, ⟨[some 5, some 6]⟩⟩] : List (Worker Nat)),
              u.id ≠ 1 → u.queue.tasks = [])
          ∧ WorkerPool.Steal { workers := [⟨1, ⟨[]⟩⟩, ⟨2, ⟨[some 5, some 6]⟩⟩] } 1
              = (none, { workers := [⟨1, ⟨[]⟩⟩, ⟨2, ⟨[some 5, some 6]⟩⟩] })))
    ∧ WorkerPool.Steal (τ := Nat) { workers := [⟨1, ⟨[]⟩⟩, ⟨2, ⟨[some 5, some 6]⟩⟩] } 1
        = (some 5, { workers := [⟨1, ⟨[]⟩⟩, ⟨2, ⟨[some 6]⟩⟩] }) := by
  have hn : NonNilTasks (τ := Nat) [⟨1, ⟨[]⟩⟩, ⟨2, ⟨[some 5, some 6]⟩⟩] := by decide
  exact ⟨hn, (C1_steal_first_nonempty
    { workers := [⟨1, ⟨[]⟩⟩, ⟨2, ⟨[some 5, some 6]⟩⟩] } 1 hn).1, by decide⟩

/-- C2: `SubmitTask` with `r` the result of `rand.Intn(n)`, `r < n`, on a pool
of `n ≥ 1` workers.  The index is inside the worker list (no panic), the task is
appended at the tail of the queue of worker `r`, whose length grows by one, and
every other worker, the number of workers and their ids stay as they were.  On
a pool without workers `SubmitTask` returns the pool unchanged, whatever the
draw. -/
theorem C2_submit_frame {τ : Type} (p : WorkerPool τ) (r : Nat) (task : Task τ)
    (hr : r < p.workers.length) :
    (∃ w q, p.workers[r]? = some w
        ∧ p.SubmitTask r task = some q
        ∧ q.workers = p.workers.set r (w.withTasks (w.queue.tasks ++ [task]))
        ∧ q.workers[r]? = some (w.withTasks (w.queue.tasks ++ [task]))
        ∧ (w.withTasks (w.queue.tasks ++ [task])).queue.tasks.length
            = w.queue.tasks.length + 1
        ∧ (∀ i, i ≠ r → q.workers[i]? = p.workers[i]?)
        ∧ q.workers.length = p.workers.length
        ∧ q.workers.map (fun u => u.id) = p.workers.map (fun u => u.id))
    ∧ (∀ (r0 : Nat) (t0 : Task τ),
        WorkerPool.SubmitTask ({ workers := [] } : WorkerPool τ) r0 t0
          = some { workers := [] }) := by
  refine ⟨?_, fun _ _ => rfl⟩
  have hw : p.workers[r]? = some (p.workers.get ⟨r, hr⟩) := by
    simp [List.getElem?_eq_getElem hr]
  have hne : p.workers.length ≠ 0 := by omega
  refine ⟨p.workers.get ⟨r, hr⟩, _, hw, ?_, rfl, ?_, ?_, ?_, ?_, ?_⟩
  · simp only [WorkerPool.SubmitTask, hne, if_false, hw]
    rfl
  · simp [hr]
  · simp [Worker.withTasks]
  · intro i hi
    simp [List.getElem?_set, Ne.symm hi]
  · simp
  · apply List.ext_getElem?
    intro i
    by_cases hi : i = r
    · subst hi
      simp [List.getElem?_set, hr, Worker.withTasks]
    · simp [List.getElem?_set, Ne.symm hi]

/-- C2 at a pool of two workers with the draw 1. -/
theorem C2_submit_frame_witness :
    1 < ([⟨10, ⟨[some 5]⟩⟩, ⟨20, ⟨[some 6]⟩⟩] : List (Worker Nat)).length
    ∧ WorkerPool.SubmitTask (τ := Nat)
        { workers := [⟨10, ⟨[some 5]⟩⟩, ⟨20, ⟨[some 6]⟩⟩] } 1 (some 7)
      = some { workers := [⟨10, ⟨[some 5]⟩⟩, ⟨20, ⟨[some 6, some 7]⟩⟩] } := by
  refine ⟨by decide, ?_⟩
  obtain ⟨w, q, hw, hs, hq, _⟩ := (C2_submit_frame (τ := Nat)
    { workers := [⟨10, ⟨[some 5]⟩⟩, ⟨20, ⟨[some 6]⟩⟩] } 1 (some 7) (by decide)).1
  have e : w = ⟨20, ⟨[some 6]⟩⟩ := by
    have h2 : some (⟨20, ⟨[some 6]⟩⟩ : Worker Nat) = some w := by simpa using hw
    exact (Option.some.inj h2).symm
  subst e
  rw [hs]
  congr 1
  cases q
  simp only at hq
  subst hq
  rfl

/-- C7: one iteration of the loop of the worker `w` at position `i`, on a pool
whose queues hold non-nil tasks.  If the own queue is `some t :: rest`, the
iteration executes `t` and only the queue of `w` changes, to `rest`: nothing is
stolen.  If the own queue is empty, the iteration leaves the pool as
`Steal w.id` leaves it and executes exactly the task `Steal w.id` returns; when
that is nil, nothing is executed, the worker sleeps and the pool is unchanged.
An executed task is reported as an error or as finished according to its
outcome, and the resulting pool and the executed task are the same for every
outcome function: a failing task is not put back on a queue. -/
theorem C7_loop_iteration {τ ε : Type} (exec : τ → Option ε) (p : WorkerPool τ) (i : Nat)
    (w : Worker τ) (hw : p.workers[i]? = some w) (hn : NonNilTasks p.workers) :
    (∀ t rest, w.queue.tasks = some t :: rest →
        ∃ ev, Worker.loopBody exec p i
            = some ({ workers := p.workers.set i (w.withTasks rest) }, ev)
          ∧ ev.executed = some t)
    ∧ (w.queue.tasks = [] →
        ∃ ev, Worker.loopBody exec p i = some ((p.Steal w.id).2, ev)
          ∧ ev.executed = (p.Steal w.id).1
          ∧ ((p.Steal w.id).1 = none → (p.Steal w.id).2 = p ∧ ev = .slept w.id))
    ∧ (∃ q ev, Worker.loopBody exec p i = some (q, ev)
        ∧ (∀ t, ev.executed = some t →
            ev = (match exec t with
                  | some err => .taskError w.id t err
                  | none => .taskFinished w.id t))
        ∧ ∀ exec2 : τ → Option ε, ∃ ev2, Worker.loopBody exec2 p i = some (q, ev2)
            ∧ ev2.executed = ev.executed) := by
  have key : ∀ (x : Option ε) (t : τ),
      LoopEvent.executed (match x with
        | some err => (LoopEvent.taskError w.id t err : LoopEvent τ ε)
        | none => .taskFinished w.id t) = some t := by
    intro x t; cases x <;> rfl
  refine ⟨?_, ?_, ?_⟩
  · intro t rest hq
    exact ⟨_, loopBody_own exec p i w hw t rest hq, key _ _⟩
  · intro hq
    refine ⟨_, loopBody_idle exec p i w hw hq, ?_, ?_⟩
    · cases (p.Steal w.id).1 with
      | none => rfl
      | some t => exact key _ _
    · intro h
      refine ⟨steal_none_unchanged p w.id hn h, ?_⟩
      simp [h]
  · cases hq : w.queue.tasks with
    | nil =>
      refine ⟨_, _, loopBody_idle exec p i w hw hq, ?_, ?_⟩
      · intro t ht
        cases hs : (p.Steal w.id).1 with
        | none => simp [hs, LoopEvent.executed] at ht
        | some t1 =>
          simp only [hs] at ht ⊢
          rw [key] at ht
          cases ht
          rfl
      · intro exec2
        refine ⟨_, loopBody_idle exec2 p i w hw hq, ?_⟩
        cases (p.Steal w.id).1 with
        | none => rfl
        | some t => simp only [key]
    | cons t0 rest =>
      have ht0 : t0 ≠ none :=
        hn w (List.getElem?_mem hw) t0 (by simp [hq])
      obtain ⟨t, rfl⟩ := Option.ne_none_iff_exists'.mp ht0
      refine ⟨_, _, loopBody_own exec p i w hw t rest hq, ?_, ?_⟩
      · intro t1 ht
        rw [key] at ht
        cases ht
        rfl
      · intro exec2
        exact ⟨_, loopBody_own exec2 p i w hw t rest hq, by simp only [key]⟩

/-- C7 at a pool of two workers, for the worker at position 0 whose own queue
is empty, with a task that fails. -/
theorem C7_loop_iteration_witness :
    ([⟨1, ⟨[]⟩⟩, ⟨2, ⟨[some 5]⟩⟩] : List (Worker Nat))[0]? = some ⟨1, ⟨[]⟩⟩
    ∧ NonNilTasks (τ := Nat) [⟨1, ⟨[]⟩⟩, ⟨2, ⟨[some 5]⟩⟩]
    ∧ ∃ ev, Worker.loopBody (fun _ : Nat => some "boom")
          { workers := [⟨1, ⟨[]⟩⟩, ⟨2, ⟨[some 5]⟩⟩] } 0
        = some ((WorkerPool.Steal { workers := [⟨1, ⟨[]⟩⟩, ⟨2, ⟨[some 5]⟩⟩] } 1).2, ev)
      ∧ ev.executed = (WorkerPool.Steal { workers := [⟨1, ⟨[]⟩⟩, ⟨2, ⟨[some 5]⟩⟩] } 1).1
      ∧ ((WorkerPool.Steal { workers := [⟨1, ⟨[]⟩⟩, ⟨2, ⟨[some 5]⟩⟩] } 1).1 = none →
          (WorkerPool.Steal { workers := [⟨1, ⟨[]⟩⟩, ⟨2, ⟨[some 5]⟩⟩] } 1).2
            = { workers := [⟨1, ⟨[]⟩⟩, ⟨2, ⟨[some 5]⟩⟩] }
          ∧ ev = .slept 1) := by
  have hn : NonNilTasks (τ := Nat) [⟨1, ⟨[]⟩⟩, ⟨2, ⟨[some 5]⟩⟩] := by decide
  exact ⟨rfl, hn, (C7_loop_iteration (fun _ : Nat => some "boom")
    { workers := [⟨1, ⟨[]⟩⟩, ⟨2, ⟨[some 5]⟩⟩] } 0 ⟨1, ⟨[]⟩⟩ rfl hn).2.1 rfl⟩

/-- C3: no job is duplicated or dropped.  From a pool whose queues are all
empty, every sequence of steps (`SubmitTask` of a job with any draw inside the
pool, or one loop iteration of any worker with any outcome) can be performed,
and in the state it reaches the jobs submitted so far are, as a multiset, the
jobs still queued plus the jobs executed so far; the submitted jobs are the
jobs of the submit steps, in order.  Hence once all queues are empty again the
executed jobs are exactly the submitted ones, each once: `m` submissions give
`m` executions.  (A pool without workers admits no step, so the pool has at
least one worker as soon as something happens.) -/
theorem C3_no_job_lost_or_duplicated {τ ε : Type} (p0 : WorkerPool τ)
    (hempty : ∀ w ∈ p0.workers, w.queue.tasks = []) (acts : List (Action τ ε))
    (hv : ∀ a ∈ acts, a.valid p0.workers.length) :
    ∃ s, Sim.run { pool := p0, submitted := [], events := [] } acts = some s
      ∧ s.submitted = acts.filterMap Action.job
      ∧ (↑s.submitted : Multiset τ) = queued s.pool.workers + ↑s.executed
      ∧ ((∀ w ∈ s.pool.workers, w.queue.tasks = []) →
          (↑s.executed : Multiset τ) = ↑s.submitted
          ∧ s.executed.length = (acts.filterMap Action.job).length) := by
  have h0 : (↑([] : List τ) : Multiset τ)
      = queued p0.workers + ↑(Sim.executed (ε := ε) { pool := p0, submitted := [], events := [] }) := by
    rw [queued_of_all_empty p0.workers hempty]
    rfl
  obtain ⟨s, hrun, _, hinv, hsub⟩ :=
    run_invariant acts { pool := p0, submitted := [], events := [] } hv h0
  refine ⟨s, hrun, by simpa using hsub, hinv, ?_⟩
  intro hall
  rw [queued_of_all_empty s.pool.workers hall, zero_add] at hinv
  refine ⟨hinv.symm, ?_⟩
  have hc := congrArg Multiset.card hinv
  simp only [Multiset.coe_card] at hc
  rw [← hc, hsub]
  simp

/-- C3 at a pool of two workers: two jobs go to worker 0, worker 1 steals and
executes the first, worker 0 executes the second, which fails. -/
theorem C3_no_job_lost_or_duplicated_witness :
    (∀ w ∈ ([⟨1, ⟨[]⟩⟩, ⟨2, ⟨[]⟩⟩] : List (Worker Nat)), w.queue.tasks = [])
    ∧ (∀ a ∈ ([.submit 5 0, .submit 6 0, .iterate 1 none, .iterate 0 (some 3)]
          : List (Action Nat Nat)),
        a.valid ([⟨1, ⟨[]⟩⟩, ⟨2, ⟨[]⟩⟩] : List (Worker Nat)).length)
    ∧ ∃ s, Sim.run { pool := { workers := [⟨1, ⟨[]⟩⟩, ⟨2, ⟨[]⟩⟩] }, submitted := [], events := [] }
          ([.submit 5 0, .submit 6 0, .iterate 1 none, .iterate 0 (some 3)]
            : List (Action Nat Nat)) = some s
      ∧ s.submitted = [5, 6]
      ∧ (↑s.submitted : Multiset Nat) = queued s.pool.workers + ↑s.executed
      ∧ ((∀ w ∈ s.pool.workers, w.queue.tasks = []) →
          (↑s.executed : Multiset Nat) = ↑s.submitted ∧ s.executed.length = 2) :=
  ⟨by decide, by decide,
    C3_no_job_lost_or_duplicated (ε := Nat) { workers := [⟨1, ⟨[]⟩⟩, ⟨2, ⟨[]⟩⟩] }
      (by decide) [.submit 5 0, .submit 6 0, .iterate 1 none, .iterate 0 (some 3)]
      (by decide)⟩

/-- C6: a pool built with exactly one worker executes in submission order.
After the jobs `js` are submitted one by one and the worker then performs
`js.length` loop iterations with outcomes `errs`, the run has executed exactly
`js`, in the order submitted, logging the `k`-th job as finished or failed
according to the `k`-th outcome, and the queue is empty again.  At every point
of that run (after any number of its steps) `Steal` called with the id of the
worker returns nil and leaves the pool as it is. -/
theorem C6_single_worker_fifo {τ ε : Type} (uuidNew : Nat → UUID) (js : List τ)
    (errs : List (Option ε)) (hlen : errs.length = js.length) :
    (∃ s, Sim.run { pool := NewWorkerPool uuidNew 1, submitted := [], events := [] }
          (fifoActions js errs) = some s
      ∧ s.executed = js
      ∧ s.events = List.zipWith (outcomeEvent (uuidNew 0)) js errs
      ∧ s.submitted = js
      ∧ s.pool = NewWorkerPool uuidNew 1)
    ∧ ∀ k, ∃ s, Sim.run { pool := NewWorkerPool uuidNew 1, submitted := [], events := [] }
          ((fifoActions js errs).take k) = some s
      ∧ s.pool.Steal (uuidNew 0) = (none, s.pool) := by
  have hp : (NewWorkerPool uuidNew 1 : WorkerPool τ) = { workers := [⟨uuidNew 0, ⟨[]⟩⟩] } := rfl
  constructor
  · refine ⟨{ pool := NewWorkerPool uuidNew 1, submitted := js,
               events := List.zipWith (outcomeEvent (uuidNew 0)) js errs }, ?_, ?_, rfl, rfl, rfl⟩
    · rw [hp, fifoActions, run_append, run_submits]
      simp only [Option.bind, List.nil_append]
      rw [run_iterates (uuidNew 0) js errs hlen]
      simp
    · simp only [Sim.executed, List.nil_append]
      clear hp
      induction js generalizing errs with
      | nil => simp
      | cons j js ih =>
        cases errs with
        | nil => simp at hlen
        | cons e es =>
          have hl : es.length = js.length := by simpa using hlen
          cases e <;> simp [outcomeEvent, LoopEvent.executed, ih es hl]
  · intro k
    have hv : ∀ a ∈ (fifoActions js errs).take k, a.valid 1 := by
      intro a ha
      have ha2 := List.mem_of_mem_take ha
      simp only [fifoActions, List.mem_append, List.mem_map] at ha2
      rcases ha2 with ⟨j, _, rfl⟩ | ⟨e, _, rfl⟩ <;> simp [Action.valid]
    obtain ⟨s, hrun, _, _, _⟩ := run_invariant ((fifoActions js errs).take k)
      { pool := NewWorkerPool uuidNew 1, submitted := [], events := [] } hv rfl
    obtain ⟨q1, hq1⟩ := run_single (uuidNew 0) _ _ s ⟨[]⟩ (by rw [hp]) hrun
    refine ⟨s, hrun, ?_⟩
    obtain ⟨⟨ws⟩, sub, evs⟩ := s
    simp only at hq1
    subst hq1
    exact steal_single_self _ _

/-- C6 for one worker and three jobs that all succeed: three success events in
the order submitted. -/
theorem C6_single_worker_fifo_witness :
    ([none, none, none] : List (Option Nat)).length = ([10, 20, 30] : List Nat).length
    ∧ ∃ s, Sim.run { pool := NewWorkerPool (fun _ => 7) 1, submitted := [], events := [] }
          (fifoActions [10, 20, 30] ([none, none, none] : List (Option Nat))) = some s
      ∧ s.executed = [10, 20, 30]
      ∧ s.events = [.taskFinished 7 10, .taskFinished 7 20, .taskFinished 7 30]
      ∧ s.submitted = [10, 20, 30]
      ∧ s.pool = NewWorkerPool (fun _ => 7) 1 :=
  ⟨rfl, (C6_single_worker_fifo (fun _ => 7) ([10, 20, 30] : List Nat)
    ([none, none, none] : List (Option Nat)) rfl).1⟩

/-- C8, as stated, fails: with the timeout 1.5s and a queue that drains at
1.2s (before the timeout), the routine finds the queue non-empty at clock 1s,
sleeps a whole second and completes at clock 2s, after the timeout. -/
theorem C8_completes_by_timeout_counterexample :
    ((1200000000 : Nat) : Int) < 1500000000
    ∧ (∀ c, c < 1200000000 → drainsAt 1200000000 [some ()] c ≠ [])
    ∧ (∀ c, 1200000000 ≤ c → drainsAt 1200000000 [some ()] c = [])
    ∧ (Worker.Shutdown (drainsAt 1200000000 [some ()]) 1500000000).clock = 2000000000
    ∧ ¬ ((Worker.Shutdown (drainsAt 1200000000 [some ()]) 1500000000).clock : Int)
          ≤ 1500000000 := by
  have hc : (Worker.Shutdown (drainsAt 1200000000 [some ()]) 1500000000).clock
      = 2000000000 := by
    simp [Worker.Shutdown, shutdownLoop, queueShutdownInterval, drainsAt]
  refine ⟨by decide, ?_, ?_, hc, ?_⟩
  · intro c h
    simp [drainsAt, h]
  · intro c h
    have h2 : ¬ c < 1200000000 := by omega
    simp [drainsAt, h2]
  · rw [hc]
    decide

/-- C8, amended: with a queue that is non-empty before `d` and empty from `d`
onward, `d` before the timeout, the routine leaves its loop through the loop
test (not through the timeout branch) at the first poll instant at or after
`d`: the clock is `k` seconds for the least `k` with `d ≤ k * 1s`, hence less
than one second after `d` and less than one second after the timeout, and not
after the timeout when the timeout is a whole number of seconds.  The queue is
empty at that point and `wg.Done` was called exactly once. -/
theorem C8_shutdown_drains {τ : Type} (tasksAt : Nat → List (Task τ)) (timeout : Int)
    (d : Nat) (hd : (d : Int) < timeout)
    (hbefore : ∀ c, c < d → tasksAt c ≠ [])
    (hafter : ∀ c, d ≤ c → tasksAt c = []) :
    (Worker.Shutdown tasksAt timeout).timedOut = false
    ∧ (∃ k : Nat, (Worker.Shutdown tasksAt timeout).clock = k * queueShutdownInterval
        ∧ d ≤ k * queueShutdownInterval
        ∧ ∀ k0 : Nat, d ≤ k0 * queueShutdownInterval → k ≤ k0)
    ∧ (Worker.Shutdown tasksAt timeout).clock < d + queueShutdownInterval
    ∧ ((Worker.Shutdown tasksAt timeout).clock : Int) < timeout + queueShutdownInterval
    ∧ ((queueShutdownInterval : Int) ∣ timeout →
        ((Worker.Shutdown tasksAt timeout).clock : Int) ≤ timeout)
    ∧ (Worker.Shutdown tasksAt timeout).remaining = []
    ∧ (Worker.Shutdown tasksAt timeout).wgDone = 1 := by
  have hreach : d ≤ 0 + ((d + 999999999) / 1000000000) * queueShutdownInterval := by
    simp only [queueShutdownInterval]; omega
  have hfirst : (d + 999999999) / 1000000000 ≠ 0 →
      0 + ((d + 999999999) / 1000000000 - 1) * queueShutdownInterval < d := by
    intro _
    simp only [queueShutdownInterval]; omega
  obtain ⟨h1, h2⟩ := shutdownLoop_drains tasksAt timeout d hd hbefore hafter
    ((d + 999999999) / 1000000000) 0 [.shuttingDown timeout] hreach hfirst
  have hclock : (Worker.Shutdown tasksAt timeout).clock
      = ((d + 999999999) / 1000000000) * 1000000000 := by
    simp only [Worker.Shutdown, h1, queueShutdownInterval]; omega
  have hrem : (Worker.Shutdown tasksAt timeout).remaining
      = tasksAt (Worker.Shutdown tasksAt timeout).clock := rfl
  refine ⟨h2, ⟨(d + 999999999) / 1000000000, hclock, ?_, ?_⟩, ?_, ?_, ?_, ?_, rfl⟩
  · simp only [queueShutdownInterval]; omega
  · intro k0 hk0
    simp only [queueShutdownInterval] at hk0
    omega
  · rw [hclock]; simp only [queueShutdownInterval]; omega
  · rw [hclock]; simp only [queueShutdownInterval]; omega
  · intro hdvd
    obtain ⟨m, hm⟩ := hdvd
    simp only [queueShutdownInterval] at hm
    rw [hclock]
    push_cast at hm ⊢
    omega
  · rw [hrem]
    apply hafter
    rw [hclock]; omega

/-- C8 (amended) at the timeout 5s with a queue that drains at 1.2s: the
routine completes at clock 2s. -/
theorem C8_shutdown_drains_witness :
    ((1200000000 : Nat) : Int) < 5000000000
    ∧ (∀ c, c < 1200000000 → drainsAt 1200000000 [some ()] c ≠ [])
    ∧ (∀ c, 1200000000 ≤ c → drainsAt 1200000000 [some ()] c = [])
    ∧ (Worker.Shutdown (drainsAt 1200000000 [some ()]) 5000000000).timedOut = false
    ∧ (Worker.Shutdown (drainsAt 1200000000 [some ()]) 5000000000).clock
        < 1200000000 + queueShutdownInterval
    ∧ (Worker.Shutdown (drainsAt 1200000000 [some ()]) 5000000000).remaining = []
    ∧ (Worker.Shutdown (drainsAt 1200000000 [some ()]) 5000000000).wgDone = 1 := by
  have hb : ∀ c, c < 1200000000 → drainsAt 1200000000 [some ()] c ≠ [] := by
    intro c h
    simp [drainsAt, h]
  have ha : ∀ c, 1200000000 ≤ c → drainsAt 1200000000 [some ()] c = [] := by
    intro c h
    have h2 : ¬ c < 1200000000 := by omega
    simp [drainsAt, h2]
  have h := C8_shutdown_drains (drainsAt 1200000000 [some ()]) 5000000000 1200000000
    (by decide) hb ha
  exact ⟨by decide, hb, ha, h.1, h.2.2.1, h.2.2.2.2.2.1, h.2.2.2.2.2.2⟩

/-- C9: the routine on a queue that never drains, with a timeout `T ≥ 0`.  It
leaves through the timeout branch at clock `k` seconds, `k` the least natural
number with `T ≤ k * 1s`: at or after `T`, less than one second after `T`, and
at clock 0 when `T = 0`.  The routine only reads the queue, so the queue it
leaves is the one found at that clock, still non-empty, and the timeout line
reports its length.  `wg.Done` was called exactly once. -/
theorem C9_shutdown_times_out {τ : Type} (tasksAt : Nat → List (Task τ)) (timeout : Int)
    (hT : 0 ≤ timeout) (hstay : ∀ c, tasksAt c ≠ []) :
    (Worker.Shutdown tasksAt timeout).timedOut = true
    ∧ (∃ k : Nat, (Worker.Shutdown tasksAt timeout).clock = k * queueShutdownInterval
        ∧ timeout ≤ ((k * queueShutdownInterval : Nat) : Int)
        ∧ ∀ k0 : Nat, timeout ≤ ((k0 * queueShutdownInterval : Nat) : Int) → k ≤ k0)
    ∧ timeout ≤ ((Worker.Shutdown tasksAt timeout).clock : Int)
    ∧ ((Worker.Shutdown tasksAt timeout).clock : Int) < timeout + queueShutdownInterval
    ∧ (timeout = 0 → (Worker.Shutdown tasksAt timeout).clock = 0)
    ∧ (Worker.Shutdown tasksAt timeout).remaining
        = tasksAt (Worker.Shutdown tasksAt timeout).clock
    ∧ (Worker.Shutdown tasksAt timeout).remaining ≠ []
    ∧ (Worker.Shutdown tasksAt timeout).log.getLast?
        = some (.timeoutReached (Worker.Shutdown tasksAt timeout).remaining.length)
    ∧ (Worker.Shutdown tasksAt timeout).wgDone = 1 := by
  obtain ⟨t, rfl⟩ := Int.eq_ofNat_of_zero_le hT
  have hreach : ((t : Nat) : Int)
      ≤ ((0 + ((t + 999999999) / 1000000000) * queueShutdownInterval : Nat) : Int) := by
    simp only [queueShutdownInterval]; omega
  have hfirst : (t + 999999999) / 1000000000 ≠ 0 →
      ((0 + ((t + 999999999) / 1000000000 - 1) * queueShutdownInterval : Nat) : Int)
        < ((t : Nat) : Int) := by
    intro _
    simp only [queueShutdownInterval]; omega
  obtain ⟨h1, h2, h3⟩ := shutdownLoop_times_out tasksAt (t : Int) hstay
    ((t + 999999999) / 1000000000) 0 [.shuttingDown (t : Int)] hreach hfirst
  have hclock : (Worker.Shutdown tasksAt (t : Int)).clock
      = ((t + 999999999) / 1000000000) * 1000000000 := by
    simp only [Worker.Shutdown, h1, queueShutdownInterval]; omega
  have hrem : (Worker.Shutdown tasksAt (t : Int)).remaining
      = tasksAt (Worker.Shutdown tasksAt (t : Int)).clock := rfl
  refine ⟨h2, ⟨(t + 999999999) / 1000000000, hclock, ?_, ?_⟩, ?_, ?_, ?_, hrem, ?_, ?_, rfl⟩
  · simp only [queueShutdownInterval]; omega
  · intro k0 hk0
    simp only [queueShutdownInterval] at hk0
    omega
  · rw [hclock]; omega
  · rw [hclock]; simp only [queueShutdownInterval]; omega
  · intro h0
    rw [hclock]; omega
  · rw [hrem]; exact hstay _
  · rw [hrem]
    have e : (Worker.Shutdown tasksAt (t : Int)).clock
        = 0 + ((t + 999999999) / 1000000000) * queueShutdownInterval := by
      rw [hclock]; simp only [queueShutdownInterval]; omega
    rw [e]
    exact h3

/-- C9 at the timeout 1.5s with a queue that always holds one task: the
routine gives up at clock 2s. -/
theorem C9_shutdown_times_out_witness :
    (0 : Int) ≤ 1500000000
    ∧ (∀ c : Nat, (fun _ => [some ()] : Nat → List (Task Unit)) c ≠ [])
    ∧ (Worker.Shutdown (fun _ => [some ()]) 1500000000).timedOut = true
    ∧ ((Worker.Shutdown (fun _ => [some ()]) 1500000000).clock : Int)
        < 1500000000 + queueShutdownInterval
    ∧ (Worker.Shutdown (fun _ => [some ()]) 1500000000).remaining ≠ []
    ∧ (Worker.Shutdown (fun _ => [some ()]) 1500000000).wgDone = 1 := by
  have hs : ∀ c : Nat, (fun _ => [some ()] : Nat → List (Task Unit)) c ≠ [] := by
    intro c; simp
  have h := C9_shutdown_times_out (fun _ => [some ()]) 1500000000 (by decide) hs
  exact ⟨by decide, hs, h.1, h.2.2.2.1, h.2.2.2.2.2.2.1, h.2.2.2.2.2.2.2.2⟩

/-- C10, evaluated: the flag value "http://x" (no timeout part) yields a
resource whose `Timeout` is 5 * 10^18 ns, that is 5 * 10^9 seconds and not the
5 seconds of the default, because `NewResource` multiplies the duration it is
given by `time.Second` once more; and "http://x,200,10s" yields the negative
`Timeout` 10^19 - 2^64 ns, the product having wrapped, not 10 seconds. -/
theorem C10_timeout_scaled_twice (atoi parseDuration : String → Except String Int) :
    resourceFlags.Set atoi parseDuration (fun s => Except.ok s) [] "http://x"
      = .ok [{ Timeout := 5000000000000000000, URL := "http://x", ExpectedStatusCode := 200 }]
    ∧ (5000000000000000000 : Int) ≠ 5 * timeSecond
    ∧ resourceFlags.Set atoi200 parseDuration10s (fun s => Except.ok s) [] "http://x,200,10s"
      = .ok [{ Timeout := -8446744073709551616, URL := "http://x",
               ExpectedStatusCode := 200 }]
    ∧ (-8446744073709551616 : Int) ≠ 10 * timeSecond := by
  refine ⟨?_, by decide, ?_, by decide⟩
  · have hsplit : stringsSplit "http://x" = ["http://x"] := by decide
    simp only [resourceFlags.Set, hsplit]
    rfl
  · have hsplit : stringsSplit "http://x,200,10s" = ["http://x", "200", "10s"] := by decide
    simp only [resourceFlags.Set, hsplit]
    rfl

end SimpleMonitor
